import Mathlib

set_option autoImplicit false

-- Rational arithmetic is marked irreducible upstream only to protect
-- `simp`; concrete-instance checks below evaluate it by `decide`.
attribute [local semireducible] Rat.add Rat.mul Rat.sub Rat.inv Rat.ofScientific

/-!
Verification of the 2-D computational-geometry kernel of `aw_utils`
(`autoware_utils_geometry`).  The repository snapshot ships only the test
suite (`test/cases/geometry.cpp`) and a few headers; the kernel
implementation files themselves are absent, so every kernel operation is
modelled from the specification (`spec.md`), with the behaviour pinned by
the in-repo tests used as cross-checks.  Coordinates are embedded as exact
rationals (`ℚ`): the doubles of the source take only small decimal values
in every behaviour relevant here, and all predicates of the spec are
sign/comparison conditions that exact arithmetic reproduces faithfully.
-/

/-! ### Primitives (§3 of the spec): `Point2D`, `Polygon2D` -/

/-- Modelled from the spec: §3 "Point2D: two finite double-precision
coordinates (x, y). Immutable value type."  The implementation header is
absent from `src/`; coordinates are embedded as exact rationals. -/
structure Point2d where
  x : ℚ
  y : ℚ
deriving DecidableEq, Repr

/-- Modelled from the spec: §3 "Polygon2D: one outer Ring plus zero or
more inner Rings representing holes"; rings are implicitly closed vertex
sequences (the closing edge from the last point back to the first is not
stored). -/
structure Polygon2d where
  outer : List Point2d
  inners : List (List Point2d)
deriving DecidableEq, Repr

def psub (p q : Point2d) : Point2d := ⟨p.x - q.x, p.y - q.y⟩

def pneg (p : Point2d) : Point2d := ⟨-p.x, -p.y⟩

def dot2 (u v : Point2d) : ℚ := u.x * v.x + u.y * v.y

def cross2 (u v : Point2d) : ℚ := u.x * v.y - u.y * v.x

/-- The edges of an implicitly-closed ring, as ordered vertex pairs:
`[(v0,v1), (v1,v2), …, (v_{n-1},v0)]`. -/
def cyclicPairs (l : List Point2d) : List (Point2d × Point2d) :=
  match l with
  | [] => []
  | p :: t => List.zip (p :: t) (t ++ [p])

/-- Normal of the edge from `u` to `v` (a 90° rotation of the edge
vector); the zero vector exactly when the edge is degenerate. -/
def edgeNormal (u v : Point2d) : Point2d := ⟨u.y - v.y, v.x - u.x⟩

/-! ### Separating Axis Test (§4.2) -/

/-- Least projection of the ring's vertices onto axis `a` (0 for an empty
ring; the intersection tests reject empty rings before projecting). -/
def listMin : List ℚ → ℚ
  | [] => 0
  | [x] => x
  | x :: y :: t => min x (listMin (y :: t))

def listMax : List ℚ → ℚ
  | [] => 0
  | [x] => x
  | x :: y :: t => max x (listMax (y :: t))

def projMin (a : Point2d) (l : List Point2d) : ℚ := listMin (l.map (dot2 a))

def projMax (a : Point2d) (l : List Point2d) : ℚ := listMax (l.map (dot2 a))

/-- Modelled from the spec: §4.2 "for every edge of A and every edge of B,
compute the outward normal as a candidate separating axis".  A degenerate
(zero-length) edge of an invalid ring yields no axis, since it has no
normal direction. -/
def satAxes (P Q : Polygon2d) : List Point2d :=
  (cyclicPairs P.outer ++ cyclicPairs Q.outer).filterMap fun e =>
    let n := edgeNormal e.1 e.2
    if n = (⟨0, 0⟩ : Point2d) then none else some n

/-- The projection intervals of the two rings onto axis `a` overlap with
positive width. -/
def strictOverlapB (A B : List Point2d) (a : Point2d) : Bool :=
  decide (projMin a A < projMax a B ∧ projMin a B < projMax a A)

/-- The projection intervals of the two rings onto axis `a` overlap or
touch (zero-width contact included). -/
def weakOverlapB (A B : List Point2d) (a : Point2d) : Bool :=
  decide (projMin a A ≤ projMax a B ∧ projMin a B ≤ projMax a A)

/-- Modelled from the spec: §4.2 `sat_intersects` — the implementation
(`sat::intersects`) is absent from `src/`.  Any candidate axis whose
projection intervals fail to overlap with positive width separates the
polygons (short-circuit, as `List.all` does); zero-area contact counts as
non-intersecting because "the intervals touch at a single scalar value
with zero-width overlap". -/
def sat_intersects (P Q : Polygon2d) : Bool :=
  (satAxes P Q).all (strictOverlapB P.outer Q.outer)

/-- Modelled from the spec: §6/§8's trusted reference intersection oracle
(`boost::geometry::intersects`), which reports true whenever the two
polygons share at least one point, boundary contact included.  For convex
polygons this holds exactly when no candidate axis separates the closed
projection intervals, i.e. when every axis overlaps at least weakly. -/
def reference_intersects (P Q : Polygon2d) : Bool :=
  (satAxes P Q).all (weakOverlapB P.outer Q.outer)

/-! #### Projection bookkeeping lemmas -/

theorem listMin_le_of_mem {l : List ℚ} {x : ℚ} (h : x ∈ l) : listMin l ≤ x := by
  induction l with
  | nil => cases h
  | cons a t ih =>
    cases t with
    | nil =>
      rcases List.mem_singleton.mp h with rfl
      exact le_refl _
    | cons b t' =>
      rcases List.mem_cons.mp h with rfl | hm
      · exact min_le_left _ _
      · exact le_trans (min_le_right _ _) (ih hm)

theorem le_listMax_of_mem {l : List ℚ} {x : ℚ} (h : x ∈ l) : x ≤ listMax l := by
  induction l with
  | nil => cases h
  | cons a t ih =>
    cases t with
    | nil =>
      rcases List.mem_singleton.mp h with rfl
      exact le_refl _
    | cons b t' =>
      rcases List.mem_cons.mp h with rfl | hm
      · exact le_max_left _ _
      · exact le_trans (ih hm) (le_max_right _ _)

theorem projMin_le_dot {a v : Point2d} {l : List Point2d} (h : v ∈ l) :
    projMin a l ≤ dot2 a v :=
  listMin_le_of_mem (List.mem_map_of_mem (dot2 a) h)

theorem dot_le_projMax {a v : Point2d} {l : List Point2d} (h : v ∈ l) :
    dot2 a v ≤ projMax a l :=
  le_listMax_of_mem (List.mem_map_of_mem (dot2 a) h)

theorem strictOverlap_weak {A B : List Point2d} {a : Point2d}
    (h : strictOverlapB A B a = true) : weakOverlapB A B a = true := by
  simp only [strictOverlapB, decide_eq_true_eq] at h
  simp only [weakOverlapB, decide_eq_true_eq]
  exact ⟨le_of_lt h.1, le_of_lt h.2⟩

theorem mem_satAxes_ne_zero {P Q : Polygon2d} {a : Point2d}
    (h : a ∈ satAxes P Q) : a ≠ (⟨0, 0⟩ : Point2d) := by
  simp only [satAxes, List.mem_filterMap] at h
  rcases h with ⟨e, -, he⟩
  by_cases hz : edgeNormal e.1 e.2 = (⟨0, 0⟩ : Point2d) <;> simp [hz] at he
  exact he ▸ hz

/-! ### Convex Intersection — Simplex Search (§4.1) -/

/-- Vertex of the ring with the greatest projection along direction `d`
(the support point; first such vertex under ties). -/
def supportPt (l : List Point2d) (d : Point2d) : Point2d :=
  match l with
  | [] => ⟨0, 0⟩
  | p :: t => t.foldl (fun best q => if dot2 d best < dot2 d q then q else best) p

/-- Support point of the Minkowski difference `A ⊖ B` along `d`: "the
vertex of A with maximum projection minus the vertex of B with minimum
projection along the same direction" (§4.1). -/
def minkSupport (A B : List Point2d) (d : Point2d) : Point2d :=
  psub (supportPt A d) (supportPt B (pneg d))

/-- All pairwise vertex differences `a - b`; the Minkowski difference
`A ⊖ B` is their convex hull, and every support point is one of them. -/
def vertexDiffs (A B : List Point2d) : List Point2d :=
  A.flatMap fun a => B.map fun b => psub a b

/-- The triangle `p q r` encloses the origin strictly (the origin lies in
its open interior): the three vertex-pair cross products share a strict
sign. -/
def strictEncloseO (p q r : Point2d) : Bool :=
  decide ((0 < cross2 p q ∧ 0 < cross2 q r ∧ 0 < cross2 r p) ∨
    (cross2 p q < 0 ∧ cross2 q r < 0 ∧ cross2 r p < 0))

/-- Perpendicular of `e` on the side of `toward`. -/
def perpToward (e toward : Point2d) : Point2d :=
  let n : Point2d := ⟨-e.y, e.x⟩
  if 0 ≤ dot2 n toward then n else pneg n

/-- The origin lies strictly inside the open segment from `p` to `q`: the
two endpoints are collinear with the origin and point in strictly
opposite directions from it. -/
def originWithinEdge (p q : Point2d) : Bool :=
  decide (cross2 p q = 0) && decide (dot2 p q < 0)

/-- A fixed perpendicular of the edge from `p` to `q`. -/
def edgePerp (p q : Point2d) : Point2d := ⟨p.y - q.y, q.x - p.x⟩

/-- Settles the degenerate simplex configuration in which the origin lies
strictly inside a simplex edge: the origin is interior to the Minkowski
difference `A ⊖ B` exactly when the difference has support strictly on
both sides of the edge's line.  Both probes are strict, so mere boundary
contact (§4.1 boundary policy) never passes. -/
def bothSidesProbe (A B : List Point2d) (p q : Point2d) : Bool :=
  let n := edgePerp p q
  decide (0 < dot2 n (minkSupport A B n)) &&
    decide (dot2 n (minkSupport A B (pneg n)) < 0)

/-- Modelled from the spec: the iterative simplex search of §4.1 (the
implementation of `intersects_convex` is absent from `src/`).  Each round
draws the support point of `A ⊖ B` along the current direction; a support
point that fails to pass the origin ends the search with `false`; a
simplex edge grows to a triangle; a triangle that strictly encloses the
origin reports `true`, and a triangle with the origin beyond one of its
new edges discards the opposite vertex and recurses on the retained edge
(§4.1's "discard and recurse" step, with the edge region identifying the
vertex to drop).  One configuration needs care, as it arises only in
exact arithmetic: if the origin lies strictly inside a simplex edge,
discarding the vertex away from that edge reconstructs the very same
triangle and the recursion cycles until the iteration budget expires;
the search instead settles that configuration directly with
`bothSidesProbe`, reporting `true` exactly when the Minkowski difference
extends strictly to both sides of the edge's line.  All comparisons are
strict, so boundary contact is zero-area contact and never counts (§4.1
boundary policy); an origin coinciding with a simplex vertex is such
contact and falls through to `false`.  The fuel argument is §4.1's
iteration budget; exhausting it reports `false`. -/
def gjkLoop (A B : List Point2d) : ℕ → List Point2d → Point2d → Bool
  | 0, _, _ => false
  | fuel + 1, simplex, d =>
    let s := minkSupport A B d
    if dot2 s d ≤ 0 then false
    else
      match simplex with
      | [b] =>
        let ab := psub b s
        let ao := pneg s
        if 0 < dot2 ab ao then gjkLoop A B fuel [s, b] (perpToward ab ao)
        else gjkLoop A B fuel [s] ao
      | [b, c] =>
        if strictEncloseO s b c then true
        else
          let ab := psub b s
          let ac := psub c s
          let ao := pneg s
          let abPerp := perpToward ab (pneg ac)
          let acPerp := perpToward ac (pneg ab)
          if 0 < dot2 abPerp ao then gjkLoop A B fuel [s, b] abPerp
          else if 0 < dot2 acPerp ao then gjkLoop A B fuel [s, c] acPerp
          else if originWithinEdge b c then bothSidesProbe A B b c
          else if originWithinEdge s b then bothSidesProbe A B s b
          else if originWithinEdge s c then bothSidesProbe A B s c
          else false
      | _ => false

/-- Modelled from the spec: §4.1 `intersects_convex(A, B)`.  The first
support point is taken along a fixed initial direction, becomes the sole
simplex point, and the direction is reversed to point toward the origin;
a polygon without vertices intersects nothing. -/
def intersects_convex (P Q : Polygon2d) : Bool :=
  if P.outer.isEmpty || Q.outer.isEmpty then false
  else
    let d0 : Point2d := ⟨1, 0⟩
    let s0 := minkSupport P.outer Q.outer d0
    gjkLoop P.outer Q.outer 64 [s0] (pneg s0)

/-! #### Soundness of the simplex search against the axis tests -/

theorem foldl_best_mem (d : Point2d) :
    ∀ (t : List Point2d) (p : Point2d),
      t.foldl (fun best q => if dot2 d best < dot2 d q then q else best) p ∈ p :: t := by
  intro t
  induction t with
  | nil => intro p; simp
  | cons a t ih =>
    intro p
    simp only [List.foldl_cons]
    by_cases hc : dot2 d p < dot2 d a
    · rw [if_pos hc]
      rcases List.mem_cons.mp (ih a) with h | h
      · rw [h]; exact List.mem_cons_of_mem _ (List.mem_cons_self _ _)
      · exact List.mem_cons_of_mem _ (List.mem_cons_of_mem _ h)
    · rw [if_neg hc]
      rcases List.mem_cons.mp (ih p) with h | h
      · rw [h]; exact List.mem_cons_self _ _
      · exact List.mem_cons_of_mem _ (List.mem_cons_of_mem _ h)

theorem supportPt_mem {l : List Point2d} (d : Point2d) (h : l ≠ []) :
    supportPt l d ∈ l := by
  cases l with
  | nil => exact absurd rfl h
  | cons p t => exact foldl_best_mem d t p

theorem mem_vertexDiffs {A B : List Point2d} {v : Point2d} :
    v ∈ vertexDiffs A B ↔ ∃ a ∈ A, ∃ b ∈ B, v = psub a b := by
  simp only [vertexDiffs, List.mem_flatMap, List.mem_map]
  constructor
  · rintro ⟨a, ha, b, hb, rfl⟩
    exact ⟨a, ha, b, hb, rfl⟩
  · rintro ⟨a, ha, b, hb, rfl⟩
    exact ⟨a, ha, b, hb, rfl⟩

theorem minkSupport_mem {A B : List Point2d} (d : Point2d)
    (hA : A ≠ []) (hB : B ≠ []) : minkSupport A B d ∈ vertexDiffs A B :=
  mem_vertexDiffs.mpr
    ⟨supportPt A d, supportPt_mem d hA, supportPt B (pneg d), supportPt_mem (pneg d) hB, rfl⟩

/-- Barycentric identity of the plane: the origin is the combination of
any three points weighted by the opposite vertex-pair cross products. -/
theorem bary_dot (a p q r : Point2d) :
    cross2 q r * dot2 a p + cross2 r p * dot2 a q + cross2 p q * dot2 a r = 0 := by
  simp only [cross2, dot2]
  ring

theorem cross_eq_zero_of_dots {a p q : Point2d} (ha : a ≠ (⟨0, 0⟩ : Point2d))
    (hp : dot2 a p = 0) (hq : dot2 a q = 0) : cross2 p q = 0 := by
  simp only [dot2] at hp hq
  have hx : a.x * cross2 p q = 0 := by
    simp only [cross2]; linear_combination q.y * hp - p.y * hq
  have hy : a.y * cross2 p q = 0 := by
    simp only [cross2]; linear_combination p.x * hq - q.x * hp
  rcases mul_eq_zero.mp hx with h | h
  · rcases mul_eq_zero.mp hy with h' | h'
    · exact absurd (by cases a; simp_all) ha
    · exact h'
  · exact h

theorem sum3_nonpos_zero {w1 w2 w3 d1 d2 d3 : ℚ}
    (hs : w1 * d1 + w2 * d2 + w3 * d3 = 0)
    (hw1 : 0 < w1) (hw2 : 0 < w2) (hw3 : 0 < w3)
    (hd1 : d1 ≤ 0) (hd2 : d2 ≤ 0) (hd3 : d3 ≤ 0) :
    d1 = 0 ∧ d2 = 0 ∧ d3 = 0 := by
  have t1 : w1 * d1 ≤ 0 := mul_nonpos_iff.mpr (Or.inl ⟨le_of_lt hw1, hd1⟩)
  have t2 : w2 * d2 ≤ 0 := mul_nonpos_iff.mpr (Or.inl ⟨le_of_lt hw2, hd2⟩)
  have t3 : w3 * d3 ≤ 0 := mul_nonpos_iff.mpr (Or.inl ⟨le_of_lt hw3, hd3⟩)
  have e1 : w1 * d1 = 0 := by linarith
  have e2 : w2 * d2 = 0 := by linarith
  have e3 : w3 * d3 = 0 := by linarith
  refine ⟨?_, ?_, ?_⟩
  · rcases mul_eq_zero.mp e1 with h | h
    · exact absurd h (ne_of_gt hw1)
    · exact h
  · rcases mul_eq_zero.mp e2 with h | h
    · exact absurd h (ne_of_gt hw2)
    · exact h
  · rcases mul_eq_zero.mp e3 with h | h
    · exact absurd h (ne_of_gt hw3)
    · exact h

/-- A triangle that strictly encloses the origin has, along every nonzero
direction, a vertex projecting strictly positively and one projecting
strictly negatively. -/
theorem enclose_signs {p q r a : Point2d} (ha : a ≠ (⟨0, 0⟩ : Point2d))
    (h : strictEncloseO p q r = true) :
    (∃ v, (v = p ∨ v = q ∨ v = r) ∧ 0 < dot2 a v) ∧
      (∃ v, (v = p ∨ v = q ∨ v = r) ∧ dot2 a v < 0) := by
  simp only [strictEncloseO, decide_eq_true_eq] at h
  have hbary := bary_dot a p q r
  constructor
  · by_contra hno
    push_neg at hno
    have hp : dot2 a p ≤ 0 := hno p (Or.inl rfl)
    have hq : dot2 a q ≤ 0 := hno q (Or.inr (Or.inl rfl))
    have hr : dot2 a r ≤ 0 := hno r (Or.inr (Or.inr rfl))
    rcases h with ⟨h1, h2, h3⟩ | ⟨h1, h2, h3⟩
    · have := sum3_nonpos_zero hbary h2 h3 h1 hp hq hr
      exact absurd (cross_eq_zero_of_dots ha this.1 this.2.1) (ne_of_gt h1)
    · have hs' : (-cross2 q r) * dot2 a p + (-cross2 r p) * dot2 a q +
          (-cross2 p q) * dot2 a r = 0 := by linarith
      have := sum3_nonpos_zero hs' (by linarith) (by linarith) (by linarith) hp hq hr
      exact absurd (cross_eq_zero_of_dots ha this.1 this.2.1) (ne_of_lt h1)
  · by_contra hno
    push_neg at hno
    have hp : 0 ≤ dot2 a p := hno p (Or.inl rfl)
    have hq : 0 ≤ dot2 a q := hno q (Or.inr (Or.inl rfl))
    have hr : 0 ≤ dot2 a r := hno r (Or.inr (Or.inr rfl))
    rcases h with ⟨h1, h2, h3⟩ | ⟨h1, h2, h3⟩
    · have hs' : cross2 q r * (-dot2 a p) + cross2 r p * (-dot2 a q) +
          cross2 p q * (-dot2 a r) = 0 := by linarith
      have := sum3_nonpos_zero hs' h2 h3 h1 (by linarith) (by linarith) (by linarith)
      exact absurd (cross_eq_zero_of_dots ha (by linarith [this.1]) (by linarith [this.2.1]))
        (ne_of_gt h1)
    · have hs' : (-cross2 q r) * (-dot2 a p) + (-cross2 r p) * (-dot2 a q) +
          (-cross2 p q) * (-dot2 a r) = 0 := by linarith
      have := sum3_nonpos_zero hs' (by linarith) (by linarith) (by linarith)
        (by linarith) (by linarith) (by linarith)
      exact absurd (cross_eq_zero_of_dots ha (by linarith [this.1]) (by linarith [this.2.1]))
        (ne_of_lt h1)

theorem dot2_psub (a u v : Point2d) : dot2 a (psub u v) = dot2 a u - dot2 a v := by
  simp only [dot2, psub]
  ring

theorem dot2_self_pos {p : Point2d} (h : p ≠ (⟨0, 0⟩ : Point2d)) : 0 < dot2 p p := by
  have hx : p.x ≠ 0 ∨ p.y ≠ 0 := by
    by_contra hc
    push_neg at hc
    exact h (by cases p; simp_all)
  simp only [dot2]
  rcases hx with hx | hy
  · have h1 : 0 < p.x * p.x := mul_self_pos.mpr hx
    nlinarith [mul_self_nonneg p.y]
  · have h1 : 0 < p.y * p.y := mul_self_pos.mpr hy
    nlinarith [mul_self_nonneg p.x]

/-- A vector with zero dot product and zero cross product against a
nonzero vector is itself zero (stated contrapositively on `n`). -/
theorem vanish_of_dot_cross {a n : Point2d} (ha : a ≠ (⟨0, 0⟩ : Point2d))
    (hd : dot2 a n = 0) (hc : cross2 a n = 0) : n = (⟨0, 0⟩ : Point2d) := by
  have hpos := dot2_self_pos ha
  simp only [dot2, cross2] at hd hc hpos
  have hx : (a.x * a.x + a.y * a.y) * n.x = 0 := by
    linear_combination a.x * hd - a.y * hc
  have hy : (a.x * a.x + a.y * a.y) * n.y = 0 := by
    linear_combination a.y * hd + a.x * hc
  have hnx : n.x = 0 := by
    rcases mul_eq_zero.mp hx with h | h
    · exact absurd h (ne_of_gt hpos)
    · exact h
  have hny : n.y = 0 := by
    rcases mul_eq_zero.mp hy with h | h
    · exact absurd h (ne_of_gt hpos)
    · exact h
  cases n
  simp_all

/-- Soundness of the degenerate-edge probe: if the origin lies strictly
inside the segment between two vertex differences and the Minkowski
difference has support strictly on both sides of that segment's line,
then along every nonzero direction some vertex difference projects
strictly positively and some strictly negatively. -/
theorem withinEdge_probe_signs {A B : List Point2d} {p q a : Point2d}
    (hp : p ∈ vertexDiffs A B) (hq : q ∈ vertexDiffs A B)
    (hA : A ≠ []) (hB : B ≠ [])
    (hw : originWithinEdge p q = true) (hpr : bothSidesProbe A B p q = true)
    (ha : a ≠ (⟨0, 0⟩ : Point2d)) :
    (∃ v ∈ vertexDiffs A B, 0 < dot2 a v) ∧
      (∃ v ∈ vertexDiffs A B, dot2 a v < 0) := by
  rw [originWithinEdge, Bool.and_eq_true, decide_eq_true_eq, decide_eq_true_eq] at hw
  obtain ⟨hcr, hdpq⟩ := hw
  simp only [bothSidesProbe, Bool.and_eq_true, decide_eq_true_eq] at hpr
  obtain ⟨hplus, hminus⟩ := hpr
  have hspmem : minkSupport A B (edgePerp p q) ∈ vertexDiffs A B :=
    minkSupport_mem _ hA hB
  have hsmmem : minkSupport A B (pneg (edgePerp p q)) ∈ vertexDiffs A B :=
    minkSupport_mem _ hA hB
  have hp0 : p ≠ (⟨0, 0⟩ : Point2d) := by
    intro h0
    rw [h0] at hdpq
    norm_num [dot2] at hdpq
  have hpp : 0 < dot2 p p := dot2_self_pos hp0
  by_cases hap : dot2 a p = 0
  · -- The axis is perpendicular to the edge, hence parallel to the probe
    -- normal; the two probe supports carry the two strict signs.
    have haq : dot2 a q = 0 := by
      have hid : dot2 a q * dot2 p p =
          dot2 a p * dot2 p q - cross2 a p * cross2 p q := by
        simp only [dot2, cross2]
        ring
      have hz : dot2 a q * dot2 p p = 0 := by
        rw [hid, hap, hcr]
        ring
      rcases mul_eq_zero.mp hz with h | h
      · exact h
      · exact absurd h (ne_of_gt hpp)
    have hcan : cross2 a (edgePerp p q) = 0 := by
      have hid : cross2 a (edgePerp p q) = dot2 a q - dot2 a p := by
        simp only [dot2, cross2, edgePerp]
        ring
      rw [hid, hap, haq]
      ring
    have hn0 : edgePerp p q ≠ (⟨0, 0⟩ : Point2d) := by
      intro h0
      have hqp : q = p := by
        rw [edgePerp] at h0
        cases p
        cases q
        simp only [Point2d.mk.injEq] at h0 ⊢
        constructor <;> linarith [h0.1, h0.2]
      rw [hqp] at hdpq
      exact absurd hdpq (not_lt.mpr (le_of_lt hpp))
    have hnn : 0 < dot2 (edgePerp p q) (edgePerp p q) := dot2_self_pos hn0
    have key : ∀ s : Point2d, dot2 a s * dot2 (edgePerp p q) (edgePerp p q) =
        dot2 a (edgePerp p q) * dot2 (edgePerp p q) s := by
      intro s
      have hid : dot2 a s * dot2 (edgePerp p q) (edgePerp p q) =
          dot2 a (edgePerp p q) * dot2 (edgePerp p q) s -
            cross2 a (edgePerp p q) * cross2 (edgePerp p q) s := by
        simp only [dot2, cross2, edgePerp]
        ring
      rw [hid, hcan]
      ring
    rcases lt_trichotomy (dot2 a (edgePerp p q)) 0 with hneg | hzero | hposn
    · refine ⟨⟨minkSupport A B (pneg (edgePerp p q)), hsmmem, ?_⟩,
        ⟨minkSupport A B (edgePerp p q), hspmem, ?_⟩⟩
      · by_contra hle
        push_neg at hle
        have h1 : 0 < dot2 a (edgePerp p q) *
            dot2 (edgePerp p q) (minkSupport A B (pneg (edgePerp p q))) :=
          mul_pos_of_neg_of_neg hneg hminus
        nlinarith [key (minkSupport A B (pneg (edgePerp p q)))]
      · by_contra hge
        push_neg at hge
        have h1 : dot2 a (edgePerp p q) *
            dot2 (edgePerp p q) (minkSupport A B (edgePerp p q)) < 0 :=
          mul_neg_of_neg_of_pos hneg hplus
        nlinarith [key (minkSupport A B (edgePerp p q))]
    · exact absurd (vanish_of_dot_cross ha hzero hcan) hn0
    · refine ⟨⟨minkSupport A B (edgePerp p q), hspmem, ?_⟩,
        ⟨minkSupport A B (pneg (edgePerp p q)), hsmmem, ?_⟩⟩
      · by_contra hle
        push_neg at hle
        have h1 : 0 < dot2 a (edgePerp p q) *
            dot2 (edgePerp p q) (minkSupport A B (edgePerp p q)) :=
          mul_pos hposn hplus
        nlinarith [key (minkSupport A B (edgePerp p q))]
      · by_contra hge
        push_neg at hge
        have h1 : dot2 a (edgePerp p q) *
            dot2 (edgePerp p q) (minkSupport A B (pneg (edgePerp p q))) < 0 :=
          mul_neg_of_pos_of_neg hposn hminus
        nlinarith [key (minkSupport A B (pneg (edgePerp p q)))]
  · -- The axis is not perpendicular to the edge; the two endpoints
    -- themselves project with strictly opposite signs.
    have hid' : dot2 a q * dot2 p p = dot2 a p * dot2 p q := by
      have hid : dot2 a q * dot2 p p =
          dot2 a p * dot2 p q - cross2 a p * cross2 p q := by
        simp only [dot2, cross2]
        ring
      rw [hid, hcr]
      ring
    rcases lt_or_gt_of_ne hap with hneg | hpos
    · refine ⟨⟨q, hq, ?_⟩, ⟨p, hp, hneg⟩⟩
      by_contra hle
      push_neg at hle
      have h1 : 0 < dot2 a p * dot2 p q := mul_pos_of_neg_of_neg hneg hdpq
      nlinarith [hid']
    · refine ⟨⟨p, hp, hpos⟩, ⟨q, hq, ?_⟩⟩
      by_contra hge
      push_neg at hge
      have h1 : dot2 a p * dot2 p q < 0 := mul_neg_of_pos_of_neg hpos hdpq
      nlinarith [hid']

/-- The simplex search can answer `true` only if, along every nonzero
direction, some vertex difference projects strictly positively and some
projects strictly negatively (via a strictly enclosing triangle or via
the degenerate-edge probe). -/
theorem gjkLoop_true_signs {A B : List Point2d} (hA : A ≠ []) (hB : B ≠ []) :
    ∀ (fuel : ℕ) (simplex : List Point2d) (d : Point2d),
      (∀ v ∈ simplex, v ∈ vertexDiffs A B) →
      gjkLoop A B fuel simplex d = true →
      ∀ a : Point2d, a ≠ (⟨0, 0⟩ : Point2d) →
        (∃ v ∈ vertexDiffs A B, 0 < dot2 a v) ∧
          (∃ v ∈ vertexDiffs A B, dot2 a v < 0) := by
  intro fuel
  induction fuel with
  | zero =>
    intro simplex d _ h
    simp [gjkLoop] at h
  | succ n ih =>
    intro simplex d hsub h a ha
    simp only [gjkLoop] at h
    split at h
    · exact absurd h (by simp)
    · split at h
      · split at h
        · refine ih _ _ ?_ h a ha
          intro v hv
          rcases List.mem_cons.mp hv with rfl | hv
          · exact minkSupport_mem d hA hB
          · exact hsub v hv
        · refine ih _ _ ?_ h a ha
          intro v hv
          rcases List.mem_singleton.mp hv with rfl
          exact minkSupport_mem d hA hB
      · split at h
        · rename_i henc
          obtain ⟨⟨v1, hv1m, hv1⟩, v2, hv2m, hv2⟩ := enclose_signs ha henc
          refine ⟨⟨v1, ?_, hv1⟩, ⟨v2, ?_, hv2⟩⟩
          · rcases hv1m with rfl | rfl | rfl
            · exact minkSupport_mem d hA hB
            · exact hsub _ (by simp)
            · exact hsub _ (by simp)
          · rcases hv2m with rfl | rfl | rfl
            · exact minkSupport_mem d hA hB
            · exact hsub _ (by simp)
            · exact hsub _ (by simp)
        · split at h
          · refine ih _ _ ?_ h a ha
            intro v hv
            rcases List.mem_cons.mp hv with rfl | hv
            · exact minkSupport_mem d hA hB
            · rcases List.mem_singleton.mp hv with rfl
              exact hsub _ (by simp)
          · split at h
            · refine ih _ _ ?_ h a ha
              intro v hv
              rcases List.mem_cons.mp hv with rfl | hv
              · exact minkSupport_mem d hA hB
              · rcases List.mem_singleton.mp hv with rfl
                exact hsub _ (by simp)
            · split at h
              · rename_i hw
                exact withinEdge_probe_signs (hsub _ (by simp)) (hsub _ (by simp))
                  hA hB hw h ha
              · split at h
                · rename_i hw
                  exact withinEdge_probe_signs (minkSupport_mem d hA hB)
                    (hsub _ (by simp)) hA hB hw h ha
                · split at h
                  · rename_i hw
                    exact withinEdge_probe_signs (minkSupport_mem d hA hB)
                      (hsub _ (by simp)) hA hB hw h ha
                  · exact absurd h (by simp)
      · exact absurd h (by simp)

/-- Vertex differences projecting strictly on both sides of the origin
along an axis force the projection intervals of the two rings to overlap
strictly along that axis. -/
theorem both_signs_strictOverlap {A B : List Point2d} {a : Point2d}
    (h1 : ∃ v ∈ vertexDiffs A B, 0 < dot2 a v)
    (h2 : ∃ v ∈ vertexDiffs A B, dot2 a v < 0) :
    strictOverlapB A B a = true := by
  obtain ⟨v1, hv1, hv1pos⟩ := h1
  obtain ⟨v2, hv2, hv2neg⟩ := h2
  obtain ⟨a1, ha1, b1, hb1, hv1eq⟩ := mem_vertexDiffs.mp hv1
  obtain ⟨a2, ha2, b2, hb2, hv2eq⟩ := mem_vertexDiffs.mp hv2
  rw [hv1eq, dot2_psub] at hv1pos
  rw [hv2eq, dot2_psub] at hv2neg
  simp only [strictOverlapB, decide_eq_true_eq]
  constructor
  · calc projMin a A ≤ dot2 a a2 := projMin_le_dot ha2
    _ < dot2 a b2 := by linarith
    _ ≤ projMax a B := dot_le_projMax hb2
  · calc projMin a B ≤ dot2 a b1 := projMin_le_dot hb1
    _ < dot2 a a1 := by linarith
    _ ≤ projMax a A := dot_le_projMax ha1

/-- A `true` answer of the simplex search certifies strict interval
overlap along every nonzero axis. -/
theorem intersects_convex_strictOverlap {P Q : Polygon2d}
    (h : intersects_convex P Q = true) :
    ∀ a : Point2d, a ≠ (⟨0, 0⟩ : Point2d) → strictOverlapB P.outer Q.outer a = true := by
  intro a ha
  rw [intersects_convex] at h
  split at h
  · exact absurd h (by simp)
  · rename_i hne
    rw [Bool.or_eq_true, not_or] at hne
    have hA : P.outer ≠ [] := by
      intro hnil
      exact hne.1 (by simp [hnil])
    have hB : Q.outer ≠ [] := by
      intro hnil
      exact hne.2 (by simp [hnil])
    obtain ⟨h1, h2⟩ :=
      gjkLoop_true_signs hA hB 64 _ _
        (by
          intro v hv
          rcases List.mem_singleton.mp hv with rfl
          exact minkSupport_mem _ hA hB) h a ha
    exact both_signs_strictOverlap h1 h2

/-! ### Example polygons from the test suite (§8 scenarios and
`DISABLED_intersectPolygon`) -/

def squareA : Polygon2d := ⟨[⟨0, 0⟩, ⟨1, 0⟩, ⟨1, 1⟩, ⟨0, 1⟩], []⟩

def squareB : Polygon2d :=
  ⟨[⟨1/2, 1/2⟩, ⟨3/2, 1/2⟩, ⟨3/2, 3/2⟩, ⟨1/2, 3/2⟩], []⟩

def squareC : Polygon2d := ⟨[⟨1, 0⟩, ⟨2, 0⟩, ⟨2, 1⟩, ⟨1, 1⟩], []⟩

def triEdge1 : Polygon2d := ⟨[⟨0, 0⟩, ⟨2, 2⟩, ⟨0, 2⟩], []⟩

def triEdge2 : Polygon2d := ⟨[⟨0, 0⟩, ⟨2, 0⟩, ⟨2, 2⟩], []⟩

/-- The pair stands in zero-area contact: the polygons share a point (the
reference oracle reports intersection) yet some candidate axis shows a
zero-width projection overlap. -/
def zeroContactB (P Q : Polygon2d) : Bool :=
  reference_intersects P Q &&
    (satAxes P Q).any fun a => !strictOverlapB P.outer Q.outer a

/-- C1 (counterexample): at the edge-sharing triangle pair of
`DISABLED_intersectPolygon`, both `intersects_convex` (GJK) and
`sat_intersects` report no intersection while the trusted reference
reports intersection — the three decision procedures do not agree on
every pair of convex polygons. -/
theorem intersect_tests_disagree_on_shared_edge :
    intersects_convex triEdge1 triEdge2 = false ∧
      sat_intersects triEdge1 triEdge2 = false ∧
      reference_intersects triEdge1 triEdge2 = true := by
  refine ⟨?_, ?_, ?_⟩ <;> decide

/-- C1 (amended): the three decision procedures need not agree, and what
holds between them is one-directional — a positive GJK answer implies a
positive SAT answer, which implies a positive reference answer; and
whenever the reference affirms intersection while SAT denies it, the
pair is in zero-area contact: some candidate axis carries projection
intervals that touch (weak overlap) without positive-width (strict)
overlap. -/
theorem convex_tests_vs_reference (P Q : Polygon2d) :
    (intersects_convex P Q = true → sat_intersects P Q = true) ∧
    (sat_intersects P Q = true → reference_intersects P Q = true) ∧
    (reference_intersects P Q = true → sat_intersects P Q = false →
      ∃ a ∈ satAxes P Q, weakOverlapB P.outer Q.outer a = true ∧
        strictOverlapB P.outer Q.outer a = false) := by
  refine ⟨?_, ?_, ?_⟩
  · intro h
    rw [sat_intersects, List.all_eq_true]
    intro a ha
    exact intersects_convex_strictOverlap h a (mem_satAxes_ne_zero ha)
  · intro h
    rw [sat_intersects, List.all_eq_true] at h
    rw [reference_intersects, List.all_eq_true]
    intro a ha
    exact strictOverlap_weak (h a ha)
  · intro href hsat
    rw [reference_intersects, List.all_eq_true] at href
    have hnot : ¬ ((satAxes P Q).all (strictOverlapB P.outer Q.outer) = true) := by
      rw [sat_intersects] at hsat
      rw [hsat]
      simp
    rw [List.all_eq_true] at hnot
    push_neg at hnot
    obtain ⟨a, ha, hfa⟩ := hnot
    exact ⟨a, ha, href a ha, by simpa using hfa⟩

/-- Witness for `convex_tests_vs_reference` at §8 Scenario A (the unit
square against its (0.5, 0.5) translate). -/
theorem convex_tests_vs_reference_check :
    sat_intersects squareA squareB = true ∧
      reference_intersects squareA squareB = true :=
  ⟨by decide, (convex_tests_vs_reference squareA squareB).2.1 (by decide)⟩

/-- C2: on every pair of convex polygons in zero-area contact (sharing
boundary points only — intervals touch on some candidate axis with
zero-width overlap), both the GJK test and the SAT test report no
intersection: strict interior overlap is distinguished from mere
contact. -/
theorem zero_area_contact_not_intersecting (P Q : Polygon2d)
    (h : zeroContactB P Q = true) :
    intersects_convex P Q = false ∧ sat_intersects P Q = false := by
  rw [zeroContactB, Bool.and_eq_true] at h
  obtain ⟨href, hany⟩ := h
  rw [List.any_eq_true] at hany
  obtain ⟨a, ha, hna⟩ := hany
  have hfa : strictOverlapB P.outer Q.outer a = false := by simpa using hna
  constructor
  · by_contra hg
    rw [Bool.not_eq_false] at hg
    have := intersects_convex_strictOverlap hg a (mem_satAxes_ne_zero ha)
    rw [this] at hfa
    exact absurd hfa (by simp)
  · by_contra hs
    rw [Bool.not_eq_false, sat_intersects, List.all_eq_true] at hs
    have := hs a ha
    rw [this] at hfa
    exact absurd hfa (by simp)

/-- Witness for `zero_area_contact_not_intersecting` at §8 Scenario B
(unit squares sharing only the edge x = 1). -/
theorem zero_area_contact_check :
    zeroContactB squareA squareC = true ∧
      intersects_convex squareA squareC = false ∧
      sat_intersects squareA squareC = false :=
  ⟨by decide, zero_area_contact_not_intersecting squareA squareC (by decide)⟩

/-! ### Triangulation — Ear Clipping with Hole Bridging (§4.3) -/

/-- Default vertex used by positional lookups (never reached on the index
ranges the algorithms use). -/
def zPt : Point2d := ⟨0, 0⟩

/-- Sum of `cross2` over consecutive vertex pairs (the open polyline part
of the shoelace formula). -/
def pathSum : List Point2d → ℚ
  | [] => 0
  | [_] => 0
  | p :: q :: t => cross2 p q + pathSum (q :: t)

/-- Twice the signed area of the implicitly-closed ring, by the shoelace
formula (positive for counter-clockwise rings). -/
def shoelace2 : List Point2d → ℚ
  | [] => 0
  | p :: t => pathSum (p :: t) + cross2 (t.getLastD p) p

/-- Twice the signed area of the triangle `a b c`. -/
def triArea2 (a b c : Point2d) : ℚ := cross2 (psub b a) (psub c a)

/-- `p` lies inside or on the triangle `a b c` (either orientation). -/
def inTriIncl (a b c p : Point2d) : Bool :=
  let s1 := cross2 (psub b a) (psub p a)
  let s2 := cross2 (psub c b) (psub p b)
  let s3 := cross2 (psub a c) (psub p c)
  (decide (0 ≤ s1) && decide (0 ≤ s2) && decide (0 ≤ s3)) ||
    (decide (s1 ≤ 0) && decide (s2 ≤ 0) && decide (s3 ≤ 0))

/-- Modelled from the spec: §4.3 step 2's ear test — vertex `i` of the
ring "is convex and its triangle (previous, current, next) contains no
other ring vertex".  A vertex coinciding with one of the triangle's own
corners (as the duplicated vertices produced by hole bridging do) does
not block the ear. -/
def earAt (l : List Point2d) (i : ℕ) : Bool :=
  let n := l.length
  let a := l.getD ((i + n - 1) % n) zPt
  let b := l.getD i zPt
  let c := l.getD ((i + 1) % n) zPt
  decide (0 < triArea2 a b c) &&
    (List.range n).all fun j =>
      let p := l.getD j zPt
      decide (j = (i + n - 1) % n) || decide (j = i) || decide (j = (i + 1) % n) ||
        decide (p = a) || decide (p = b) || decide (p = c) || !inTriIncl a b c p

/-- First ear of the ring, scanning all cyclic positions in order (§4.3
allows "any deterministic selection order"). -/
def findEar (l : List Point2d) : Option ℕ :=
  (List.range l.length).find? (earAt l)

/-- Modelled from the spec: §4.3 step 2 — repeatedly clip an ear and
remove its middle vertex until exactly 3 vertices remain, emitting the
final triangle; a ring that drops below 3 vertices, or exposes no ear, is
a degenerate input and fails (`none`); the fuel bound guarantees
termination.  The cyclic ring is kept rotated so that the ear being
clipped sits at position 1: the emitted triangle (previous, current,
next) is the rotated ring's first three vertices, and removing the middle
vertex is erasing position 1. -/
def clipLoop : ℕ → List Point2d → Option (List Polygon2d)
  | 0, _ => none
  | fuel + 1, l =>
    if l.length < 3 then none
    else if l.length = 3 then some [⟨l, []⟩]
    else
      match findEar l with
      | none => none
      | some i =>
        let r := l.rotate ((i + l.length - 1) % l.length)
        (clipLoop fuel (r.eraseIdx 1)).map fun ts =>
          (⟨[r.getD 0 zPt, r.getD 1 zPt, r.getD 2 zPt], []⟩ : Polygon2d) :: ts

/-- Segments `a b` and `c d` cross properly (their interiors intersect
transversally). -/
def properCross (a b c d : Point2d) : Bool :=
  let d1 := cross2 (psub d c) (psub a c)
  let d2 := cross2 (psub d c) (psub b c)
  let d3 := cross2 (psub b a) (psub c a)
  let d4 := cross2 (psub b a) (psub d a)
  decide (d1 * d2 < 0) && decide (d3 * d4 < 0)

def segHitsRing (p q : Point2d) (ring : List Point2d) : Bool :=
  (cyclicPairs ring).any fun e => properCross p q e.1 e.2

/-- Modelled from the spec: §4.3 step 1's visibility search — a vertex of
the (partially bridged) outer ring visible from the hole's chosen vertex
(its first) "without crossing any ring". -/
def visibleIdx (ring hole : List Point2d) : Option ℕ :=
  let h0 := hole.headD zPt
  (List.range ring.length).find? fun j =>
    let oj := ring.getD j zPt
    !(segHitsRing h0 oj ring || segHitsRing h0 oj hole)

/-- Modelled from the spec: §4.3 step 1's splice — the hole ring is
spliced into the outer ring at outer vertex `j` "via a pair of coincident
bridging edges", duplicating the hole's chosen vertex and the outer
vertex. -/
def spliceAt (ring : List Point2d) (j : ℕ) (hole : List Point2d) : List Point2d :=
  ring.take (j + 1) ++ hole ++ hole.headD zPt :: ring.getD j zPt :: ring.drop (j + 1)

/-- Modelled from the spec: §4.3 step 1 — bridge each hole in turn into
the growing ring; a hole with no visible bridge vertex is unresolvable
topology and fails. -/
def bridgeHoles : List Point2d → List (List Point2d) → Option (List Point2d)
  | ring, [] => some ring
  | ring, h :: rest =>
    match visibleIdx ring h with
    | none => none
    | some j => bridgeHoles (spliceAt ring j h) rest

/-- Modelled from the spec: §4.3 `triangulate(P)` — the implementation is
absent from `src/`.  Empty hole rings are skipped without altering the
outer ring; the remaining holes are bridged into a single simple ring,
which is ear-clipped into triangles. -/
def triangulate (P : Polygon2d) : Option (List Polygon2d) :=
  match bridgeHoles P.outer (P.inners.filter fun h => !h.isEmpty) with
  | none => none
  | some ring => clipLoop ring.length ring

/-! #### Shoelace bookkeeping -/

theorem getLastD_irrel {l : List Point2d} (h : l ≠ []) (d d' : Point2d) :
    l.getLastD d = l.getLastD d' := by
  obtain ⟨v, hv⟩ := Option.isSome_iff_exists.mp (List.getLast?_isSome.mpr h)
  rw [List.getLastD_eq_getLast?, List.getLastD_eq_getLast?, hv]
  rfl

theorem pathSum_cons {w : List Point2d} (x : Point2d) (h : w ≠ []) :
    pathSum (x :: w) = cross2 x (w.headD zPt) + pathSum w := by
  cases w with
  | nil => exact absurd rfl h
  | cons a t => rfl

theorem pathSum_append {u v : List Point2d} (hu : u ≠ []) (hv : v ≠ []) :
    pathSum (u ++ v) =
      pathSum u + cross2 (u.getLastD zPt) (v.headD zPt) + pathSum v := by
  induction u with
  | nil => exact absurd rfl hu
  | cons x u' ih =>
    cases u' with
    | nil =>
      rw [List.singleton_append, pathSum_cons x hv]
      simp [pathSum]
    | cons y u'' =>
      have hne : (y :: u'') ≠ [] := by simp
      have e1 : (x :: y :: u'') ++ v = x :: ((y :: u'') ++ v) := by simp
      rw [e1, pathSum_cons x (by simp : (y :: u'') ++ v ≠ []), ih hne]
      rw [pathSum_cons x hne]
      have e2 : ((y :: u'') ++ v).headD zPt = (y :: u'').headD zPt := by simp
      have e3 : (x :: y :: u'').getLastD zPt = (y :: u'').getLastD zPt := by
        simp [List.getLastD_cons]
      rw [e2, e3]
      ring

theorem shoelace2_eq {l : List Point2d} (h : l ≠ []) :
    shoelace2 l = pathSum l + cross2 (l.getLastD zPt) (l.headD zPt) := by
  cases l with
  | nil => exact absurd rfl h
  | cons p t =>
    rw [List.getLastD_cons, List.headD_cons]
    rfl

theorem shoelace2_rotate_one (l : List Point2d) :
    shoelace2 (l.rotate 1) = shoelace2 l := by
  cases l with
  | nil => simp
  | cons a t =>
    rw [List.rotate_cons_succ, List.rotate_zero]
    cases t with
    | nil => simp
    | cons h t2 =>
      have hne : (h :: t2) ≠ [] := by simp
      rw [shoelace2_eq (by simp : (h :: t2) ++ [a] ≠ []),
        shoelace2_eq (by simp : (a :: h :: t2) ≠ [])]
      rw [pathSum_append hne (by simp : ([a] : List Point2d) ≠ [])]
      have e1 : ((h :: t2) ++ [a]).getLastD zPt = a := List.getLastD_concat zPt a (h :: t2)
      have e2 : ((h :: t2) ++ [a]).headD zPt = h := rfl
      rw [e1, e2]
      rw [pathSum_cons a hne]
      simp only [pathSum, List.headD_cons, List.getLastD_cons]
      ring

theorem shoelace2_rotate (l : List Point2d) (k : ℕ) :
    shoelace2 (l.rotate k) = shoelace2 l := by
  induction k generalizing l with
  | zero => rw [List.rotate_zero]
  | succ n ih =>
    have e : l.rotate (n + 1) = (l.rotate 1).rotate n := by
      rw [List.rotate_rotate, Nat.add_comm]
    rw [e, ih, shoelace2_rotate_one]

theorem shoelace2_triple (a b c : Point2d) :
    shoelace2 [a, b, c] = triArea2 a b c := by
  simp [shoelace2, pathSum, triArea2, cross2, psub]
  ring

theorem shoelace2_clip1 {r : List Point2d} (h4 : 4 ≤ r.length) :
    shoelace2 r =
      triArea2 (r.getD 0 zPt) (r.getD 1 zPt) (r.getD 2 zPt) +
        shoelace2 (r.eraseIdx 1) := by
  rcases r with _ | ⟨x, _ | ⟨a, _ | ⟨b, rest⟩⟩⟩
  · simp at h4
  · simp at h4
  · simp at h4
  · cases rest with
    | nil =>
      simp [shoelace2, pathSum, triArea2, cross2, psub, List.eraseIdx]
      ring
    | cons y t =>
      simp only [List.getD_cons_zero, List.getD_cons_succ, List.eraseIdx]
      simp only [shoelace2, pathSum, List.getLastD_cons]
      simp only [triArea2, cross2, psub]
      ring

/-- Clipping an ear never changes the total signed area: the sum of the
emitted triangles' doubled areas is the ring's doubled shoelace area. -/
theorem clipLoop_area :
    ∀ (fuel : ℕ) (l : List Point2d) (ts : List Polygon2d),
      clipLoop fuel l = some ts →
      (ts.map fun t => shoelace2 t.outer).sum = shoelace2 l := by
  intro fuel
  induction fuel with
  | zero =>
    intro l ts h
    simp [clipLoop] at h
  | succ n ih =>
    intro l ts h
    simp only [clipLoop] at h
    split at h
    · exact absurd h (by simp)
    · split at h
      · rename_i h3
        rw [Option.some_inj] at h
        subst h
        simp [shoelace2]
      · split at h
        · exact absurd h (by simp)
        · rename_i hlt h3 i hear
          obtain ⟨ts', hts', rfl⟩ := Option.map_eq_some'.mp h
          have h4 : 4 ≤ (l.rotate ((i + l.length - 1) % l.length)).length := by
            rw [List.length_rotate]
            omega
          simp only [List.map_cons, List.sum_cons]
          rw [ih _ _ hts', shoelace2_triple, ← shoelace2_clip1 h4, shoelace2_rotate]

/-- Each clip removes one vertex and emits one triangle, so a ring of `n`
vertices yields exactly `n - 2` triangles. -/
theorem clipLoop_count :
    ∀ (fuel : ℕ) (l : List Point2d) (ts : List Polygon2d),
      clipLoop fuel l = some ts → ts.length = l.length - 2 := by
  intro fuel
  induction fuel with
  | zero =>
    intro l ts h
    simp [clipLoop] at h
  | succ n ih =>
    intro l ts h
    simp only [clipLoop] at h
    split at h
    · exact absurd h (by simp)
    · split at h
      · rename_i h3
        rw [Option.some_inj] at h
        subst h
        simp [h3]
      · split at h
        · exact absurd h (by simp)
        · rename_i hlt h3 i hear
          obtain ⟨ts', hts', rfl⟩ := Option.map_eq_some'.mp h
          have hlen :
              ((l.rotate ((i + l.length - 1) % l.length)).eraseIdx 1).length =
                l.length - 1 := by
            rw [List.length_eraseIdx]
            rw [List.length_rotate]
            have : 1 < l.length := by omega
            simp [this]
          have := ih _ _ hts'
          rw [hlen] at this
          simp only [List.length_cons, this]
          omega

/-! #### Hole bridging preserves area and counts vertices -/

theorem take_ne_nil {ring : List Point2d} (h : ring ≠ []) (j : ℕ) :
    ring.take (j + 1) ≠ [] := by
  cases ring with
  | nil => exact absurd rfl h
  | cons a t => simp

theorem headD_take (ring : List Point2d) (j : ℕ) :
    (ring.take (j + 1)).headD zPt = ring.headD zPt := by
  cases ring <;> simp

theorem headD_append_left {u : List Point2d} (v : List Point2d) (hu : u ≠ [])
    (d : Point2d) : (u ++ v).headD d = u.headD d := by
  cases u with
  | nil => exact absurd rfl hu
  | cons a t => rfl

theorem getLastD_append_right (u : List Point2d) {v : List Point2d} (hv : v ≠ [])
    (d : Point2d) : (u ++ v).getLastD d = v.getLastD d := by
  obtain ⟨w, hw⟩ := Option.isSome_iff_exists.mp (List.getLast?_isSome.mpr hv)
  rw [List.getLastD_eq_getLast?, List.getLastD_eq_getLast?, List.getLast?_append, hw]
  rfl

theorem getLastD_take :
    ∀ (ring : List Point2d) (j : ℕ), j < ring.length →
      (ring.take (j + 1)).getLastD zPt = ring.getD j zPt := by
  intro ring
  induction ring with
  | nil => intro j hj; simp at hj
  | cons x t ih =>
    intro j hj
    cases j with
    | zero => simp
    | succ j' =>
      have hj' : j' < t.length := by simpa using hj
      have htne : t.take (j' + 1) ≠ [] := by
        cases t with
        | nil => simp at hj'
        | cons y t2 => simp
      show (x :: t.take (j' + 1)).getLastD zPt = t.getD j' zPt
      rw [List.getLastD_cons, getLastD_irrel htne x zPt, ih j' hj']

theorem spliceAt_length {ring : List Point2d} (hole : List Point2d) {j : ℕ}
    (hj : j < ring.length) :
    (spliceAt ring j hole).length = ring.length + hole.length + 2 := by
  simp [spliceAt]
  omega

/-- Splicing a hole into a ring through a pair of coincident bridging
edges adds the hole's signed area to the ring's: the two opposite bridge
edges cancel in the shoelace sum. -/
theorem spliceAt_shoelace {ring hole : List Point2d} {j : ℕ}
    (hring : ring ≠ []) (hhole : hole ≠ []) (hj : j < ring.length) :
    shoelace2 (spliceAt ring j hole) = shoelace2 ring + shoelace2 hole := by
  have hP : ring.take (j + 1) ≠ [] := take_ne_nil hring j
  have hPlast : (ring.take (j + 1)).getLastD zPt = ring.getD j zPt :=
    getLastD_take ring j hj
  have hrs : ring.take (j + 1) ++ ring.drop (j + 1) = ring :=
    List.take_append_drop (j + 1) ring
  have hS : spliceAt ring j hole =
      ring.take (j + 1) ++
        (hole ++ hole.headD zPt :: ring.getD j zPt :: ring.drop (j + 1)) := by
    simp [spliceAt]
  have hT : hole ++ hole.headD zPt :: ring.getD j zPt :: ring.drop (j + 1) ≠ [] := by
    simp [hhole]
  have hhh : hole.headD zPt :: ring.getD j zPt :: ring.drop (j + 1) ≠ [] := by simp
  rw [hS, shoelace2_eq (by simp [hP]), pathSum_append hP hT,
    pathSum_append hhole hhh, headD_append_left _ hhole, hPlast]
  rw [shoelace2_eq hring, shoelace2_eq hhole]
  rw [headD_append_left _ hP, headD_take]
  rcases hys : ring.drop (j + 1) with _ | ⟨y, t⟩
  · have hlen_le : ring.length ≤ j + 1 := by
      have hld := congrArg List.length hys
      rw [List.length_drop] at hld
      simp at hld
      omega
    have hring_eq : ring.take (j + 1) = ring := List.take_of_length_le hlen_le
    rw [hring_eq]
    have e1 : (ring ++ (hole ++ [hole.headD zPt, ring.getD j zPt])).getLastD zPt =
        ring.getD j zPt := by
      rw [getLastD_append_right _ (by simp [hhole]),
        getLastD_append_right _ (by simp)]
      simp [List.getLastD_cons]
    rw [e1]
    have e2 : ring.getLastD zPt = ring.getD j zPt := by
      conv_lhs => rw [← hring_eq]
      exact hPlast
    rw [e2]
    simp only [pathSum, List.headD_cons]
    simp only [cross2]
    ring
  · have hyst : (y :: t) ≠ [] := by simp
    have e1 : (ring.take (j + 1) ++
        (hole ++ hole.headD zPt :: ring.getD j zPt :: y :: t)).getLastD zPt =
        (y :: t).getLastD zPt := by
      rw [getLastD_append_right _ (by simp [hhole]),
        getLastD_append_right _ (by simp)]
      simp only [List.getLastD_cons]
    rw [e1]
    have e2 : ring.getLastD zPt = (y :: t).getLastD zPt := by
      conv_lhs => rw [← hrs, hys]
      rw [getLastD_append_right _ hyst]
    rw [e2]
    have e3 : pathSum ring =
        pathSum (ring.take (j + 1)) + cross2 (ring.getD j zPt) y + pathSum (y :: t) := by
      conv_lhs => rw [← hrs, hys]
      rw [pathSum_append hP hyst, hPlast]
      rfl
    rw [e3]
    have e4 : pathSum (hole.headD zPt :: ring.getD j zPt :: y :: t) =
        cross2 (hole.headD zPt) (ring.getD j zPt) + cross2 (ring.getD j zPt) y +
          pathSum (y :: t) := by
      simp only [pathSum]
      ring
    rw [e4]
    simp only [List.headD_cons]
    simp only [cross2]
    ring

theorem visibleIdx_lt {ring hole : List Point2d} {j : ℕ}
    (h : visibleIdx ring hole = some j) : j < ring.length := by
  have hmem := List.mem_of_find?_eq_some h
  simpa using hmem

theorem bridgeHoles_inv :
    ∀ (hs : List (List Point2d)) (ring r : List Point2d),
      (∀ h ∈ hs, h ≠ []) → ring ≠ [] → bridgeHoles ring hs = some r →
      shoelace2 r = shoelace2 ring + (hs.map shoelace2).sum ∧
        r.length = ring.length + (hs.map fun h => h.length + 2).sum ∧ r ≠ [] := by
  intro hs
  induction hs with
  | nil =>
    intro ring r _ hring h
    simp only [bridgeHoles, Option.some_inj] at h
    subst h
    simp [hring]
  | cons hh rest ih =>
    intro ring r hne hring h
    simp only [bridgeHoles] at h
    split at h
    · exact absurd h (by simp)
    · rename_i j hvis
      have hj := visibleIdx_lt hvis
      have hhne : hh ≠ [] := hne hh (by simp)
      have hsplice_len := spliceAt_length hh hj
      have hsne : spliceAt ring j hh ≠ [] := by
        intro hnil
        rw [hnil] at hsplice_len
        simp at hsplice_len
      obtain ⟨ha, hl, hr⟩ :=
        ih (spliceAt ring j hh) r (fun x hx => hne x (by simp [hx])) hsne h
      refine ⟨?_, ?_, hr⟩
      · rw [ha, spliceAt_shoelace hring hhne hj]
        simp only [List.map_cons, List.sum_cons]
        ring
      · rw [hl, hsplice_len]
        simp only [List.map_cons, List.sum_cons]
        omega

/-! #### Triangulation claim theorems -/

theorem sum_shoelace_filter (inners : List (List Point2d)) :
    (((inners.filter fun h => !h.isEmpty).map shoelace2)).sum =
      (inners.map shoelace2).sum := by
  induction inners with
  | nil => rfl
  | cons h t ih =>
    by_cases he : h.isEmpty
    · have hnil : h = [] := by
        cases h
        · rfl
        · simp at he
      subst hnil
      simpa [List.filter_cons, shoelace2] using ih
    · simp [List.filter_cons, he, ih]

theorem filter_mem_ne_nil (inners : List (List Point2d)) :
    ∀ x ∈ inners.filter fun h => !h.isEmpty, x ≠ [] := by
  intro x hx
  have := (List.mem_filter.mp hx).2
  intro hnil
  subst hnil
  simp at this

theorem outer_ne_nil_of_triangulate {P : Polygon2d}
    (h : (triangulate P).isSome = true) : P.outer ≠ [] := by
  intro hnil
  rw [triangulate] at h
  rcases hfil : P.inners.filter fun r => !r.isEmpty with _ | ⟨hh, rest⟩ <;>
    rw [hfil, hnil] at h
  · simp [bridgeHoles, clipLoop] at h
  · simp [bridgeHoles, visibleIdx] at h

/-- C3: whenever triangulation succeeds, the signed areas of the emitted
triangles sum exactly (tolerance 0 in exact arithmetic) to the polygon's
signed area — the outer ring's shoelace area plus the (oppositely
oriented, hence subtracted) areas of all hole rings; empty inner rings
contribute nothing. -/
theorem triangulate_area_conservation (P : Polygon2d)
    (h : (triangulate P).isSome = true) :
    (((triangulate P).getD []).map fun t => shoelace2 t.outer).sum =
      shoelace2 P.outer + (P.inners.map shoelace2).sum := by
  have houter : P.outer ≠ [] := outer_ne_nil_of_triangulate h
  rcases hbr : bridgeHoles P.outer (P.inners.filter fun r => !r.isEmpty)
    with _ | ring
  · rw [triangulate, hbr] at h
    simp at h
  · have hT : triangulate P = clipLoop ring.length ring := by
      rw [triangulate, hbr]
    rcases hcl : clipLoop ring.length ring with _ | ts
    · rw [hT, hcl] at h
      simp at h
    · have hinv := bridgeHoles_inv _ _ _ (filter_mem_ne_nil P.inners) houter hbr
      have harea := clipLoop_area _ _ _ hcl
      rw [hT, hcl]
      simp only [Option.getD_some]
      rw [harea, hinv.1, sum_shoelace_filter]

/-- Witness for `triangulate_area_conservation`: §8 Scenario D, the
concave "house" with a 0.5 × 0.5 square hole. -/
def housePoly : Polygon2d := ⟨[⟨0, 0⟩, ⟨4, 0⟩, ⟨4, 4⟩, ⟨2, 2⟩, ⟨0, 4⟩], []⟩

def houseHolePoly : Polygon2d :=
  ⟨[⟨0, 0⟩, ⟨4, 0⟩, ⟨4, 4⟩, ⟨2, 2⟩, ⟨0, 4⟩],
    [[⟨1, 1⟩, ⟨1, 3/2⟩, ⟨3/2, 3/2⟩, ⟨3/2, 1⟩]]⟩

def houseHoleEmptyPoly : Polygon2d :=
  ⟨[⟨0, 0⟩, ⟨4, 0⟩, ⟨4, 4⟩, ⟨2, 2⟩, ⟨0, 4⟩],
    [[], [⟨1, 1⟩, ⟨1, 3/2⟩, ⟨3/2, 3/2⟩, ⟨3/2, 1⟩]]⟩

theorem triangulate_area_check :
    (triangulate houseHolePoly).isSome = true ∧
      (((triangulate houseHolePoly).getD []).map fun t => shoelace2 t.outer).sum =
        shoelace2 houseHolePoly.outer + (houseHolePoly.inners.map shoelace2).sum :=
  ⟨by decide, triangulate_area_conservation houseHolePoly (by decide)⟩

theorem sum_map_add_two (hs : List (List Point2d)) :
    (hs.map fun h => h.length + 2).sum = (hs.map List.length).sum + 2 * hs.length := by
  induction hs with
  | nil => rfl
  | cons h t ih =>
    simp only [List.map_cons, List.sum_cons, List.length_cons, ih]
    ring

/-- C4: whenever triangulation succeeds it produces exactly
`n + m + 2h - 2` triangles, where `n` counts the outer vertices, `m` the
vertices of all non-empty holes together, and `h` the non-empty holes
(for a hole-free polygon: exactly `n - 2`). -/
theorem triangulate_count_law (P : Polygon2d)
    (h : (triangulate P).isSome = true) :
    ((triangulate P).getD []).length =
      P.outer.length + ((P.inners.filter fun r => !r.isEmpty).map List.length).sum +
        2 * (P.inners.filter fun r => !r.isEmpty).length - 2 := by
  have houter : P.outer ≠ [] := outer_ne_nil_of_triangulate h
  rcases hbr : bridgeHoles P.outer (P.inners.filter fun r => !r.isEmpty)
    with _ | ring
  · rw [triangulate, hbr] at h
    simp at h
  · have hT : triangulate P = clipLoop ring.length ring := by
      rw [triangulate, hbr]
    rcases hcl : clipLoop ring.length ring with _ | ts
    · rw [hT, hcl] at h
      simp at h
    · have hinv := bridgeHoles_inv _ _ _ (filter_mem_ne_nil P.inners) houter hbr
      have hcount := clipLoop_count _ _ _ hcl
      rw [hT, hcl]
      simp only [Option.getD_some]
      rw [hcount, hinv.2.1, sum_map_add_two]
      omega

/-- Witness for `triangulate_count_law` at the hole-free house (5
vertices, 3 triangles) — `n - 2` with no hole terms. -/
theorem triangulate_count_check :
    (triangulate housePoly).isSome = true ∧
      ((triangulate housePoly).getD []).length =
        housePoly.outer.length +
          ((housePoly.inners.filter fun r => !r.isEmpty).map List.length).sum +
          2 * (housePoly.inners.filter fun r => !r.isEmpty).length - 2 :=
  ⟨by decide, triangulate_count_law housePoly (by decide)⟩

/-- C7: an empty inner-ring entry is treated as "no hole", not an error —
triangulation depends only on the outer ring and the non-empty holes, so
inserting empty inner rings anywhere leaves the result (hence success and
covered area) unchanged. -/
theorem triangulate_skips_empty_inners (P Q : Polygon2d)
    (houter : P.outer = Q.outer)
    (hinners : (P.inners.filter fun r => !r.isEmpty) =
      (Q.inners.filter fun r => !r.isEmpty)) :
    triangulate P = triangulate Q := by
  rw [triangulate, triangulate, houter, hinners]

/-- Witness for `triangulate_skips_empty_inners`: the house-with-hole
with an empty inner ring prepended triangulates exactly as without it,
and both succeed. -/
theorem triangulate_skips_empty_inners_check :
    triangulate houseHoleEmptyPoly = triangulate houseHolePoly ∧
      (triangulate houseHoleEmptyPoly).isSome = true :=
  ⟨triangulate_skips_empty_inners houseHoleEmptyPoly houseHolePoly rfl (by decide),
    by decide⟩

/-! ### Concave Intersection (§4.4) -/

/-- Modelled from the spec: §4.4 `test_intersection` — the implementation
is absent from `src/`.  Given the two triangle decompositions and a
convex test chosen by the caller, it "reports true iff any triangle of
A's decomposition intersects any triangle of B's decomposition under the
supplied convex test". -/
def test_intersection (ts1 ts2 : List Polygon2d)
    (convex_test : Polygon2d → Polygon2d → Bool) : Bool :=
  ts1.any fun t1 => ts2.any fun t2 => convex_test t1 t2

/-- C5: the concave intersection composition is exactly an existential
over all pairs of triangles of the two triangulations — it answers true
precisely when some triangle of A's decomposition and some triangle of
B's decomposition intersect under the supplied convex test. -/
theorem test_intersection_exists (A B : Polygon2d)
    (convex_test : Polygon2d → Polygon2d → Bool) :
    test_intersection ((triangulate A).getD []) ((triangulate B).getD [])
        convex_test = true ↔
      ∃ t1 ∈ (triangulate A).getD [], ∃ t2 ∈ (triangulate B).getD [],
        convex_test t1 t2 = true := by
  simp [test_intersection, List.any_eq_true]

/-- The concave house-with-hole polygon and the overlapping quadrilateral
of `TEST(geometry, intersectPolygonWithHoles)`. -/
def outerConcavePoly : Polygon2d :=
  ⟨[⟨0, 0⟩, ⟨4, 0⟩, ⟨4, 4⟩, ⟨2, 2⟩, ⟨0, 4⟩],
    [[⟨1, 1⟩, ⟨1, 3⟩, ⟨3, 3⟩, ⟨3, 1⟩]]⟩

def innerQuadPoly : Polygon2d :=
  ⟨[⟨1/2, 1/2⟩, ⟨5/2, 1/2⟩, ⟨5/2, 2⟩, ⟨1/2, 2⟩], []⟩

/-- Witness for `test_intersection_exists`: an explicit intersecting pair
of triangles from the two decompositions. -/
theorem test_intersection_check :
    test_intersection ((triangulate outerConcavePoly).getD [])
      ((triangulate innerQuadPoly).getD []) sat_intersects = true :=
  (test_intersection_exists outerConcavePoly innerQuadPoly sat_intersects).mpr
    ⟨⟨[⟨0, 4⟩, ⟨0, 0⟩, ⟨1, 1⟩], []⟩, by decide,
      ⟨[⟨1/2, 2⟩, ⟨1/2, 1/2⟩, ⟨5/2, 1/2⟩], []⟩, by decide, by decide⟩

/-! ### Curvature (§7 degenerate-geometry error) -/

def sqDist (p q : Point2d) : ℚ := (p.x - q.x) ^ 2 + (p.y - q.y) ^ 2

/-- Modelled from the spec: §7's degenerate-geometry error for
`calc_curvature` (implementation absent from `src/`; behaviour pinned by
`TEST(geometry, calc_curvature)`).  The code divides twice the cross
product of the point differences by the product of the three pairwise
Euclidean distances and throws exactly when that denominator is zero.
The model returns `none` precisely when the code throws (the distance
product vanishes iff two input points coincide) and otherwise the
numerator `2·cross`; the true curvature divides this by the strictly
positive (generally irrational) distance product, which changes neither
definedness nor sign nor vanishing. -/
def calc_curvature (p1 p2 p3 : Point2d) : Option ℚ :=
  if sqDist p1 p2 * sqDist p2 p3 * sqDist p3 p1 = 0 then none
  else some (2 * ((p2.x - p1.x) * (p3.y - p1.y) - (p2.y - p1.y) * (p3.x - p1.x)))

theorem sqDist_eq_zero {p q : Point2d} : sqDist p q = 0 ↔ p = q := by
  constructor
  · intro h
    rw [sqDist] at h
    have hx : (p.x - q.x) ^ 2 = 0 := by nlinarith [sq_nonneg (p.x - q.x), sq_nonneg (p.y - q.y)]
    have hy : (p.y - q.y) ^ 2 = 0 := by nlinarith [sq_nonneg (p.x - q.x), sq_nonneg (p.y - q.y)]
    have hx' : p.x = q.x := by
      have := (pow_eq_zero_iff (by norm_num : (2 : ℕ) ≠ 0)).mp hx
      linarith
    have hy' : p.y = q.y := by
      have := (pow_eq_zero_iff (by norm_num : (2 : ℕ) ≠ 0)).mp hy
      linarith
    cases p
    cases q
    simp_all
  · intro h
    subst h
    simp [sqDist]

/-- C6 (counterexample): the straight-line case of
`TEST(geometry, calc_curvature)` — three collinear, pairwise-distinct
points.  The claim demands a degenerate-geometry error for every
collinear input, but the computation succeeds and returns curvature 0,
exactly as the test expects (`EXPECT_DOUBLE_EQ(calc_curvature(...), 0.0)`). -/
theorem calc_curvature_collinear_no_error :
    calc_curvature ⟨0, 0⟩ ⟨1, 0⟩ ⟨2, 0⟩ = some 0 := by decide

/-- C6 (amended): `calc_curvature` raises the degenerate-geometry error
exactly when two of its three input points coincide; collinear but
pairwise-distinct inputs are accepted (and yield curvature 0). -/
theorem calc_curvature_error_iff (p1 p2 p3 : Point2d) :
    calc_curvature p1 p2 p3 = none ↔ p1 = p2 ∨ p2 = p3 ∨ p3 = p1 := by
  rw [calc_curvature]
  constructor
  · intro h
    split at h
    · rename_i hc
      rcases mul_eq_zero.mp hc with hc' | hc'
      · rcases mul_eq_zero.mp hc' with hc'' | hc''
        · exact Or.inl (sqDist_eq_zero.mp hc'')
        · exact Or.inr (Or.inl (sqDist_eq_zero.mp hc''))
      · exact Or.inr (Or.inr (sqDist_eq_zero.mp hc'))
    · exact absurd h (by simp)
  · intro h
    have hc : sqDist p1 p2 * sqDist p2 p3 * sqDist p3 p1 = 0 := by
      rcases h with h | h | h
      · rw [sqDist_eq_zero.mpr h]
        ring
      · rw [sqDist_eq_zero.mpr h]
        ring
      · rw [sqDist_eq_zero.mpr h]
        ring
    rw [if_pos hc]

/-- Witness for `calc_curvature_error_iff`: two coincident points raise
the error, as in the test's `ASSERT_ANY_THROW(calc_curvature(p1, p1, p2))`. -/
theorem calc_curvature_error_check :
    calc_curvature ⟨0, 0⟩ ⟨0, 0⟩ ⟨1, 0⟩ = none :=
  (calc_curvature_error_iff _ _ _).mpr (Or.inl rfl)

/-! ### Segment intersection helper -/

/-- Modelled from the spec: the segment–segment helper `intersect` is
absent from `src/` and not described by the spec's component sections; it
is reconstructed from the behaviour pinned by `TEST(geometry,
intersect)`: a determinant-based line intersection.  The determinant of
the two direction vectors vanishes for parallel, collinear, or degenerate
(single-point) segments, giving an empty result; otherwise both segment
parameters are range-checked and the crossing point is interpolated. -/
def intersect (p1 p2 p3 p4 : Point2d) : Option Point2d :=
  let det := (p1.x - p2.x) * (p4.y - p3.y) - (p4.x - p3.x) * (p1.y - p2.y)
  if det = 0 then none
  else
    let t := ((p4.y - p3.y) * (p4.x - p2.x) + (p3.x - p4.x) * (p4.y - p2.y)) / det
    let s := ((p2.y - p1.y) * (p4.x - p2.x) + (p1.x - p2.x) * (p4.y - p2.y)) / det
    if t < 0 ∨ 1 < t ∨ s < 0 ∨ 1 < s then none
    else some ⟨t * p1.x + (1 - t) * p2.x, t * p1.y + (1 - t) * p2.y⟩

/-- C10: whenever either input segment degenerates to a single point, the
helper returns the empty result — even when that point lies exactly on
the other segment — because the direction determinant vanishes. -/
theorem intersect_degenerate_none (p1 p2 p3 p4 : Point2d)
    (h : p1 = p2 ∨ p3 = p4) : intersect p1 p2 p3 p4 = none := by
  rcases h with rfl | rfl
  · simp only [intersect]
    rw [if_pos (by ring)]
  · simp only [intersect]
    rw [if_pos (by ring)]

/-- Witness for `intersect_degenerate_none`: the test's "one segment is
the point on the other's segment" case, `EXPECT_FALSE`. -/
theorem intersect_degenerate_check :
    intersect ⟨0, -1⟩ ⟨0, 1⟩ ⟨0, 0⟩ ⟨0, 0⟩ = none :=
  intersect_degenerate_none _ _ _ _ (Or.inr rfl)

/-- The remaining behaviours pinned by `TEST(geometry, intersect)`:
proper crossing, disjoint segments, identical (parallel) segments,
endpoint touching, and collinear overlap. -/
theorem intersect_test_cases :
    intersect ⟨0, -1⟩ ⟨0, 1⟩ ⟨-1, 0⟩ ⟨1, 0⟩ = some ⟨0, 0⟩ ∧
      intersect ⟨0, -1⟩ ⟨0, 1⟩ ⟨1, 0⟩ ⟨3, 0⟩ = none ∧
      intersect ⟨0, -1⟩ ⟨0, 1⟩ ⟨0, -1⟩ ⟨0, 1⟩ = none ∧
      intersect ⟨0, -1⟩ ⟨0, 1⟩ ⟨0, 0⟩ ⟨1, 0⟩ = some ⟨0, 0⟩ ∧
      intersect ⟨0, -1⟩ ⟨0, 1⟩ ⟨0, -1⟩ ⟨2, -1⟩ = some ⟨0, -1⟩ := by
  refine ⟨?_, ?_, ?_, ?_, ?_⟩ <;> decide

/-! ### Random Polygon Generators (§4.5) -/

/-- A linear congruential pseudo-random step, standing in for the
internally constructed standard random engine. -/
def lcg (s : ℕ) : ℕ := (s * 1103515245 + 12345) % 2147483648

/-- The `n`-th draw of the engine started at state `s`. -/
def randIter : ℕ → ℕ → ℕ
  | 0, s => lcg s
  | n + 1, s => lcg (randIter n s)

/-- `p` lies on the closed segment from `u` to `v`. -/
def onSeg (u v p : Point2d) : Bool :=
  decide (cross2 (psub v u) (psub p u) = 0) &&
    decide (min u.x v.x ≤ p.x ∧ p.x ≤ max u.x v.x ∧
      min u.y v.y ≤ p.y ∧ p.y ≤ max u.y v.y)

/-- Closed segments `a b` and `c d` share at least one point. -/
def segsIntersectIncl (a b c d : Point2d) : Bool :=
  let d1 := cross2 (psub d c) (psub a c)
  let d2 := cross2 (psub d c) (psub b c)
  let d3 := cross2 (psub b a) (psub c a)
  let d4 := cross2 (psub b a) (psub d a)
  (decide (d1 * d2 < 0) && decide (d3 * d4 < 0)) ||
    (decide (d1 = 0) && onSeg c d a) || (decide (d2 = 0) && onSeg c d b) ||
    (decide (d3 = 0) && onSeg a b c) || (decide (d4 = 0) && onSeg a b d)

/-- The ring is a simple (non-self-intersecting) polygon boundary: at
least 3 vertices, no degenerate edge, no two non-adjacent edges share a
point, and no adjacent edges fold back over each other. -/
def isSimpleRing (l : List Point2d) : Bool :=
  decide (3 ≤ l.length) &&
    ((cyclicPairs l).all fun e => decide (e.1 ≠ e.2)) &&
    (let es := cyclicPairs l
     let n := es.length
     ((List.range n).all fun i =>
       (List.range n).all fun j =>
         if i = j || (i + 1) % n = j || (j + 1) % n = i then true
         else
           let e1 := es.getD i (zPt, zPt)
           let e2 := es.getD j (zPt, zPt)
           !segsIntersectIncl e1.1 e1.2 e2.1 e2.2) &&
      (List.range n).all fun i =>
        let e1 := es.getD i (zPt, zPt)
        let e2 := es.getD ((i + 1) % n) (zPt, zPt)
        !(decide (cross2 (psub e1.2 e1.1) (psub e2.2 e2.1) = 0) &&
          (onSeg e1.1 e1.2 e2.2 || onSeg e2.1 e2.2 e1.1)))

/-- Every interior angle turns the same way (no reflex vertex). -/
def isConvexRing (l : List Point2d) : Bool :=
  (let n := l.length
   ((List.range n).all fun i =>
     decide (0 ≤ triArea2 (l.getD i zPt) (l.getD ((i + 1) % n) zPt)
       (l.getD ((i + 2) % n) zPt))) ||
    (List.range n).all fun i =>
      decide (triArea2 (l.getD i zPt) (l.getD ((i + 1) % n) zPt)
        (l.getD ((i + 2) % n) zPt) ≤ 0))

/-- The ring has at least one reflex (non-convex) vertex. -/
def hasReflexVertex (l : List Point2d) : Bool := !isConvexRing l

def scalePt (c : ℚ) (p : Point2d) : Point2d := ⟨c * p.x, c * p.y⟩

/-- A fixed fan of directions ordered by angle, along which the concave
generator draws random radii. -/
def fanDirs : List Point2d :=
  [⟨4, 0⟩, ⟨3, 3⟩, ⟨0, 4⟩, ⟨-3, 3⟩, ⟨-4, 0⟩, ⟨-3, -3⟩, ⟨0, -4⟩, ⟨3, -3⟩]

/-- One randomized candidate ring: a radial polygon with random radii
bounded by the coordinate bound. -/
def candidateRing (vertices : ℕ) (maxv : ℚ) (s : ℕ) : List Point2d :=
  (List.range vertices).map fun i =>
    scalePt (maxv * (1 + (randIter i s % 8 : ℕ)) / 32) (fanDirs.getD (i % 8) zPt)

/-- One attempt of the concave generator: the candidate is accepted only
if it passes the simplicity check and is not convex. -/
def rcpAttempt (vertices : ℕ) (maxv : ℚ) (s : ℕ) : Option Polygon2d :=
  let ring := candidateRing vertices maxv s
  if isSimpleRing ring && hasReflexVertex ring then some ⟨ring, []⟩ else none

/-- The bounded retry loop of the concave generator. -/
def rcpLoop (vertices : ℕ) (maxv : ℚ) : ℕ → ℕ → Option Polygon2d
  | 0, _ => none
  | attempts + 1, s =>
    match rcpAttempt vertices maxv s with
    | some p => some p
    | none => rcpLoop vertices maxv attempts (lcg s)

/-- Modelled from the spec: §4.5 `random_concave_polygon` — the
implementation is absent from `src/`.  The randomized construction draws
random radii along a fan of angle-ordered directions; a candidate is
returned only if it is simple and has a reflex vertex, and after a
bounded number of attempts the generator gives up and returns no result
(an expected outcome, hence `Option`).  Following the call sites in the
test file, the generator takes only the vertex-count hint and the
coordinate bound; its random engine is internal, seeded per call from a
random device whose state is this pure model's explicit `device`
argument. -/
def random_concave_polygon (vertices : ℕ) (maxv : ℚ) (device : ℕ) : Option Polygon2d :=
  rcpLoop vertices maxv 100 device

def ptLeX (p q : Point2d) : Bool :=
  decide (p.x < q.x) || (decide (p.x = q.x) && decide (p.y ≤ q.y))

def insertByX (p : Point2d) : List Point2d → List Point2d
  | [] => [p]
  | q :: t => if ptLeX p q then p :: q :: t else q :: insertByX p t

def sortByX : List Point2d → List Point2d
  | [] => []
  | p :: t => insertByX p (sortByX t)

def popNonLeft (p : Point2d) : List Point2d → List Point2d
  | b :: a :: rest =>
    if cross2 (psub b a) (psub p a) ≤ 0 then popNonLeft p (a :: rest) else b :: a :: rest
  | l => l

def buildHalf (pts : List Point2d) : List Point2d :=
  pts.foldl (fun st p => p :: popNonLeft p st) []

/-- Monotone-chain convex hull of a point set (counter-clockwise). -/
def convexHullPts (pts : List Point2d) : List Point2d :=
  let sorted := sortByX pts
  let lower := (buildHalf sorted).reverse
  let upper := (buildHalf sorted.reverse).reverse
  lower.dropLast ++ upper.dropLast

/-- A pseudo-random point of the square `[-maxv, maxv]²`. -/
def randPt (maxv : ℚ) (s : ℕ) (i : ℕ) : Point2d :=
  let rx := randIter (2 * i) s % 2001
  let ry := randIter (2 * i + 1) s % 2001
  ⟨maxv * ((rx : ℚ) - 1000) / 1000, maxv * ((ry : ℚ) - 1000) / 1000⟩

/-- Modelled from the spec: §4.5 `random_convex_polygon` — the
implementation is absent from `src/`.  It draws the hinted number of
random points within the coordinate bound and returns their convex hull
(so the realized vertex count may shrink during hull reduction).
Following the call sites in the test file, it takes only the vertex-count
hint and the coordinate bound; its random engine is internal, seeded per
call from a random device whose state is this pure model's explicit
`device` argument. -/
def random_convex_polygon (vertices : ℕ) (maxv : ℚ) (device : ℕ) : Polygon2d :=
  ⟨convexHullPts ((List.range vertices).map (randPt maxv device)), []⟩

/-! #### Generator claim theorems -/

theorem rcpLoop_valid (vertices : ℕ) (maxv : ℚ) :
    ∀ (attempts s : ℕ) (p : Polygon2d),
      rcpLoop vertices maxv attempts s = some p →
      isSimpleRing p.outer = true ∧ hasReflexVertex p.outer = true := by
  intro attempts
  induction attempts with
  | zero =>
    intro s p h
    simp [rcpLoop] at h
  | succ n ih =>
    intro s p h
    simp only [rcpLoop] at h
    split at h
    · rename_i q hq
      rw [Option.some_inj] at h
      subst h
      rw [rcpAttempt] at hq
      split at hq
      · rename_i hcheck
        rw [Option.some_inj] at hq
        subst hq
        simp only [Bool.and_eq_true] at hcheck
        exact hcheck
      · exact absurd hq (by simp)
    · exact ih _ _ h

/-- C8: the concave generator returns an optional result, and whenever it
does return a polygon that polygon passed the acceptance checks — it is
simple (non-self-intersecting) and contains at least one reflex
(non-convex) vertex.  A `none` result merely means the bounded retry
budget was exhausted. -/
theorem random_concave_polygon_valid (vertices : ℕ) (maxv : ℚ) (device : ℕ)
    (h : (random_concave_polygon vertices maxv device).isSome = true) :
    isSimpleRing ((random_concave_polygon vertices maxv device).getD ⟨[], []⟩).outer
        = true ∧
      hasReflexVertex
        ((random_concave_polygon vertices maxv device).getD ⟨[], []⟩).outer = true := by
  rcases hr : random_concave_polygon vertices maxv device with _ | p
  · rw [hr] at h
    simp at h
  · simp only [Option.getD_some]
    rw [random_concave_polygon] at hr
    exact rcpLoop_valid vertices maxv 100 device p hr

/-- Witness for `random_concave_polygon_valid` at a succeeding device
state, plus the expected no-result outcome on a 3-vertex hint (a triangle
can never be concave, so every attempt is rejected). -/
theorem random_concave_polygon_valid_check :
    (random_concave_polygon 5 10 1).isSome = true ∧
      (isSimpleRing ((random_concave_polygon 5 10 1).getD ⟨[], []⟩).outer = true ∧
        hasReflexVertex ((random_concave_polygon 5 10 1).getD ⟨[], []⟩).outer = true) ∧
      random_concave_polygon 3 10 0 = none :=
  ⟨by decide, random_concave_polygon_valid 5 10 1 (by decide), by decide⟩

/-- C9 (counterexample): two calls of each generator with identical
caller-supplied arguments but different internal random-device states
return different results — the output is not a function of the
parameters the caller passes (vertex count and coordinate bound), so the
generators do not take an explicit caller-supplied random source; their
randomness is hidden per-call state. -/
theorem random_generators_hidden_state :
    random_convex_polygon 4 10 0 ≠ random_convex_polygon 4 10 1 ∧
      random_concave_polygon 5 10 1 ≠ random_concave_polygon 5 10 2 := by
  refine ⟨?_, ?_⟩ <;> decide

/-- C9 (amended): as invoked by the tests the generators take only the
vertex-count hint and the coordinate bound, drawing from an internal
engine seeded per call from a random device.  With the device state held
fixed the generators are deterministic, while distinct device states can
yield distinct polygons: reproducibility requires controlling the hidden
device state, which the two-argument interface does not expose. -/
theorem random_generators_state_determinism :
    (∀ (v : ℕ) (m : ℚ) (s s' : ℕ), s = s' →
      random_convex_polygon v m s = random_convex_polygon v m s' ∧
        random_concave_polygon v m s = random_concave_polygon v m s') ∧
      ∃ s s' : ℕ, random_convex_polygon 4 10 s ≠ random_convex_polygon 4 10 s' := by
  constructor
  · intro v m s s' h
    rw [h]
    exact ⟨rfl, rfl⟩
  · exact ⟨0, 1, by decide⟩

/-- Witness for `random_generators_state_determinism` at a concrete
state. -/
theorem random_generators_state_determinism_check :
    random_convex_polygon 4 10 7 = random_convex_polygon 4 10 7 ∧
      random_concave_polygon 4 10 7 = random_concave_polygon 4 10 7 :=
  random_generators_state_determinism.1 4 10 7 7 rfl
